import Mathlib

/-!
Shallow embedding of the membership resolution engine of
`find-sha1-hulud-users` (src/github.ts) and the CSV field escaping of
src/output.ts, together with proofs of the specification's claims.

Network calls are modelled as explicit oracle parameters:
* the direct membership query `octokit.rest.orgs.checkMembershipForUser`
  becomes a function `dc : String → String → Bool` returning `true`
  exactly when the query succeeds (affirms membership) and `false` when
  it throws, whatever the cause;
* the organization enumeration drain becomes an
  `Except String (List String)` value — `ok` carries the concatenated
  pages, `error` the failure message (github.ts:53-119 never lets a
  partial list escape);
* the collaborator listing drain becomes a `DrainResult`: the pages the
  iterator yielded before it stopped, plus whether it stopped by
  throwing — so a mid-drain failure leaves the partially accumulated
  set, exactly as the error-swallowing catch in github.ts:31-51 does;
* `localeCompare` becomes an oracle comparator
  `lc : String → String → Int`; sortedness is proved for every
  comparator inducing a total preorder (which a consistent comparison
  function must), and the concrete examples instantiate it on
  all-lowercase names, on which every collation agrees with code-point
  order.
JavaScript `Map`/`Set` values are modelled as insertion-ordered
association lists / lists without duplicates, which is exactly their
observable behaviour (`Map` and `Set` iterate in insertion order;
`Map.set` on an existing key updates in place).  `Array.prototype.sort`
is stable, so it is rendered as a stable insertion sort.  The per-user
engine loop is serialized in worklist order; the concurrent
per-organization fan-out inserts Map keys in promise completion order,
so it is modelled with an explicit completion schedule
(`resolveUserOrgsSched`) besides the iteration-order serialization.
CSV fields are modelled as character lists, matching the per-character
semantics of the regexp replace.
-/

/-- `SearchResult` from src/github.ts. -/
structure SearchResult where
  owner : String
  repo : String
  url : String
deriving DecidableEq, Repr

/-- `MembershipType` from src/github.ts. -/
inductive MembershipType where
  | member
  | outside_collaborator
  | none
deriving DecidableEq, Repr

/-- `OrganizationInfo` from src/github.ts; the `Set<string>` of
lower-cased outside-collaborator logins is a duplicate-free list. -/
structure OrganizationInfo where
  login : String
  outsideCollaborators : List String
deriving DecidableEq, Repr

/-- `UserMembership` from src/github.ts; `organizations` is the
insertion-ordered `Map<string, MembershipType>`. -/
structure UserMembership where
  username : String
  organizations : List (String × MembershipType)
deriving DecidableEq, Repr

/-- `UserResult` from src/github.ts; `memberships` entries are the
`{ org, type }` pairs. -/
structure UserResult where
  username : String
  repositories : List SearchResult
  memberships : List (String × MembershipType)
deriving DecidableEq, Repr

/-- JS `String.prototype.toLowerCase`, restricted to ASCII case mapping
(GitHub logins are ASCII); structural so that concrete instances reduce
inside the kernel. -/
def toLowerStr (s : String) : String :=
  String.mk (s.data.map Char.toLower)

/-- Outcome of draining the paginated collaborator listing: the pages
the iterator yielded before it stopped, and whether it then stopped by
throwing (`failed = true`) or by normal exhaustion. -/
structure DrainResult where
  pages : List (List String)
  failed : Bool
deriving DecidableEq, Repr

/-- `fetchOutsideCollaborators` (src/github.ts lines 31-51): drain the
paginated listing, adding each collaborator login lower-cased to a set.
The catch swallows any fetch failure, so the function returns whatever
was accumulated from the pages yielded before the failure — the empty
set only when the drain fails before its first page. -/
def fetchOutsideCollaborators (drain : DrainResult) : List String :=
  drain.pages.foldl
    (fun s page =>
      page.foldl (fun s l => if s.contains (toLowerStr l) then s else s ++ [toLowerStr l]) s)
    []

/-- `getEnterpriseOrganizations` (src/github.ts lines 53-119): if the
top-level enumeration fails, rethrow with the underlying message
attached; otherwise build every organization's collaborator cache. -/
def getEnterpriseOrganizations (enumResult : Except String (List String))
    (collabFetch : String → DrainResult) :
    Except String (List OrganizationInfo) :=
  match enumResult with
  | Except.error message =>
      Except.error ("Failed to fetch enterprise organizations: " ++ message)
  | Except.ok orgLogins =>
      Except.ok (orgLogins.map (fun login =>
        { login := login
          outsideCollaborators := fetchOutsideCollaborators (collabFetch login) }))

/-- `checkUserMembershipInOrg` (src/github.ts lines 152-168): a direct
membership query that succeeds short-circuits to `member`; on any error
fall back to the lower-cased cache lookup. -/
def checkUserMembershipInOrg (dc : String → String → Bool)
    (org : OrganizationInfo) (username : String) : MembershipType :=
  if dc org.login username then MembershipType.member
  else if org.outsideCollaborators.contains (toLowerStr username) then
    MembershipType.outside_collaborator
  else MembershipType.none

/-- JS `[...new Set(xs)]`: deduplicate keeping first occurrences, in
insertion order.  `seen` is the set of values already emitted. -/
def uniqueAux (seen : List String) : List String → List String
  | [] => []
  | x :: xs => if seen.contains x then uniqueAux seen xs else x :: uniqueAux (x :: seen) xs

/-- `[...new Set(usernames)]` in `checkUserMemberships`. -/
def uniqueList (xs : List String) : List String :=
  uniqueAux [] xs

/-- The per-user organization fan-out of `checkUserMemberships`
(src/github.ts lines 200-205), serialized in iteration order: check
every organization, keeping only non-`none` results keyed by
organization login.  The source runs the checks concurrently and
inserts Map keys as each completes; arbitrary completion orders are
modelled by `resolveUserOrgsSched` below. -/
def resolveUserOrgs (dc : String → String → Bool) (username : String) :
    List OrganizationInfo → List (String × MembershipType)
  | [] => []
  | org :: rest =>
      let t := checkUserMembershipInOrg dc org username
      if t = MembershipType.none then resolveUserOrgs dc username rest
      else (org.login, t) :: resolveUserOrgs dc username rest

/-- The user loop of `checkUserMemberships` (src/github.ts lines
188-212): `cache` is the `userCache` set of lower-cased usernames
already processed; a username whose lower-casing is cached is skipped,
otherwise its membership entry is produced under the first-seen
casing. -/
def resolveLoop (dc : String → String → Bool) (organizations : List OrganizationInfo) :
    List String → List String → List (String × UserMembership)
  | _, [] => []
  | cache, username :: rest =>
      if cache.contains (toLowerStr username) then
        resolveLoop dc organizations cache rest
      else
        (username,
          { username := username
            organizations := resolveUserOrgs dc username organizations }) ::
          resolveLoop dc organizations (toLowerStr username :: cache) rest

/-- `checkUserMemberships` (src/github.ts lines 170-218). -/
def checkUserMemberships (dc : String → String → Bool)
    (organizations : List OrganizationInfo) (usernames : List String) :
    List (String × UserMembership) :=
  resolveLoop dc organizations [] (uniqueList usernames)

/-- JS `Map.set` on an association list: an existing key keeps its
position and gets the new value; a fresh key is appended. -/
def mapSet (m : List (String × MembershipType)) (k : String) (t : MembershipType) :
    List (String × MembershipType) :=
  if m.any (fun q => q.1 == k) then m.map (fun q => if q.1 == k then (q.1, t) else q)
  else m ++ [(k, t)]

/-- The organizations listed in the order given by a completion
schedule of indices into `orgs`. -/
def permuteByIdx (orgs : List OrganizationInfo) (sched : List Nat) : List OrganizationInfo :=
  sched.filterMap (fun i => orgs[i]?)

/-- One completion event of the concurrent per-organization fan-out
(src/github.ts lines 200-205): the settled check writes its non-`none`
result into the user's Map. -/
def schedStep (dc : String → String → Bool) (u : String)
    (m : List (String × MembershipType)) (org : OrganizationInfo) :
    List (String × MembershipType) :=
  let t := checkUserMembershipInOrg dc org u
  if t = MembershipType.none then m else mapSet m org.login t

/-- The per-user organization fan-out under an explicit completion
schedule: the checks settle in the order `sched` lists their indices,
and the Map receives keys in that completion order. -/
def resolveUserOrgsSched (dc : String → String → Bool) (username : String)
    (orgs : List OrganizationInfo) (sched : List Nat) : List (String × MembershipType) :=
  (permuteByIdx orgs sched).foldl (schedStep dc username) []

/-- One step of the repository grouping of `aggregateResults`
(src/github.ts lines 227-231): `userRepos.set(owner, existing.push(r))`
appends to the owner's entry in place, or appends a fresh entry at the
end on first sight of the owner. -/
def upsertRepo : List (String × List SearchResult) → String → SearchResult →
    List (String × List SearchResult)
  | [], k, r => [(k, [r])]
  | q :: rest, k, r =>
      if q.1 = k then (q.1, q.2 ++ [r]) :: rest else q :: upsertRepo rest k r

/-- The `userRepos` map of `aggregateResults` after grouping. -/
def groupByOwner (repositories : List SearchResult) : List (String × List SearchResult) :=
  repositories.foldl (fun m r => upsertRepo m r.owner r) []

/-- `memberships.get(username)` followed by flattening the user's
organizations map into `{ org, type }` entries (src/github.ts lines
236-243); a missing user yields the empty list. -/
def membershipListOf (memberships : List (String × UserMembership)) (username : String) :
    List (String × MembershipType) :=
  match memberships.find? (fun q => q.1 == username) with
  | some q => q.2.organizations
  | Option.none => []

/-- Character-wise code-point comparison on char lists; used only to
build the concrete example collation `lcExample`, not as a general
model of `localeCompare`. -/
def lexLeChars : List Char → List Char → Bool
  | [], _ => true
  | _ :: _, [] => false
  | c :: cs, d :: ds => if c = d then lexLeChars cs ds else decide (c < d)

/-- The sort comparator of `aggregateResults` (src/github.ts lines
253-258) read as a "comes no later than" relation: membership count
descending, ties broken by username ascending under the locale
comparator `lc` (the `localeCompare` collaborator, an oracle returning
a negative, zero or positive number). -/
def userLE (lc : String → String → Int) (a b : UserResult) : Prop :=
  b.memberships.length < a.memberships.length ∨
    (a.memberships.length = b.memberships.length ∧ lc a.username b.username ≤ 0)

instance (lc : String → String → Int) : DecidableRel (userLE lc) := fun a b => by
  unfold userLE
  infer_instance

/-- A concrete consistent collation used to instantiate examples:
code-point comparison, with which every locale's collation agrees on
the all-lowercase ASCII usernames the examples use. -/
def lcExample (a b : String) : Int :=
  if lexLeChars a.data b.data then (if lexLeChars b.data a.data then 0 else -1) else 1

/-- `aggregateResults` (src/github.ts lines 220-261): group repositories
by raw owner string, attach each owner's membership list, then stable
sort with the comparator (JS `Array.prototype.sort` is stable); `lc` is
the `localeCompare` oracle used for ties. -/
def aggregateResults (lc : String → String → Int) (repositories : List SearchResult)
    (memberships : List (String × UserMembership)) : List UserResult :=
  List.insertionSort (userLE lc)
    ((groupByOwner repositories).map (fun q =>
      { username := q.1
        repositories := q.2
        memberships := membershipListOf memberships q.1 }))

/-- Association lookup in the grouping map with empty-list default; a
proof device for stating what each owner's group contains. -/
def ownerGroup (m : List (String × List SearchResult)) (k : String) : List SearchResult :=
  match m.find? (fun q => q.1 == k) with
  | some q => q.2
  | Option.none => []

/-- The quote-doubling of `escapeCSV` (src/output.ts line 108):
`value.replace(/"/g, '""')` over the field's characters. -/
def escapeQuotes : List Char → List Char
  | [] => []
  | c :: cs => if c = '"' then '"' :: '"' :: escapeQuotes cs else c :: escapeQuotes cs

/-- `escapeCSV` (src/output.ts lines 105-111) over the field's
characters: wrap and double quotes when the field holds a comma,
newline or double quote, otherwise return it unchanged. -/
def escapeCSV (value : List Char) : List Char :=
  if value.contains ',' || value.contains '\n' || value.contains '"' then
    '"' :: (escapeQuotes value ++ ['"'])
  else value

/-- Standard CSV quote collapsing, from the claim's words: each doubled
double quote becomes a single one. -/
def collapseQuotes : List Char → List Char
  | [] => []
  | [c] => [c]
  | c :: d :: cs =>
      if c = '"' ∧ d = '"' then '"' :: collapseQuotes cs
      else c :: collapseQuotes (d :: cs)

/-- Standard CSV field unescaping, from the claim's words: strip the
outer quotes, collapse doubled quotes. -/
def unescapeCSVField (s : List Char) : List Char :=
  collapseQuotes ((s.drop 1).dropLast)

/-- C1: a successful direct membership query yields `member`
unconditionally, whatever the collaborator cache holds. -/
theorem checkMembership_member_wins (dc : String → String → Bool)
    (org : OrganizationInfo) (username : String)
    (h : dc org.login username = true) :
    checkUserMembershipInOrg dc org username = MembershipType.member := by
  simp [checkUserMembershipInOrg, h]

theorem checkMembership_member_wins_witness :
    checkUserMembershipInOrg (fun _ _ => true)
      { login := "acme", outsideCollaborators := ["bob"] } "Bob" =
      MembershipType.member :=
  checkMembership_member_wins (fun _ _ => true)
    { login := "acme", outsideCollaborators := ["bob"] } "Bob" rfl

/-- C2: when the direct query fails, presence of the lower-cased
username in the collaborator cache yields `outside_collaborator`,
absence yields `none`. -/
theorem checkMembership_fallback (dc : String → String → Bool)
    (org : OrganizationInfo) (username : String)
    (h : dc org.login username = false) :
    (toLowerStr username ∈ org.outsideCollaborators →
      checkUserMembershipInOrg dc org username = MembershipType.outside_collaborator) ∧
    (toLowerStr username ∉ org.outsideCollaborators →
      checkUserMembershipInOrg dc org username = MembershipType.none) := by
  constructor <;> intro hmem <;> simp [checkUserMembershipInOrg, h, hmem]

theorem checkMembership_fallback_witness :
    checkUserMembershipInOrg (fun _ _ => false)
      { login := "acme", outsideCollaborators := ["bob"] } "Bob" =
      MembershipType.outside_collaborator :=
  (checkMembership_fallback (fun _ _ => false)
    { login := "acme", outsideCollaborators := ["bob"] } "Bob" rfl).1 (by decide)

/-- C3 counterexample: a drain that yielded one page holding `bob` and
then failed (`failed = true`) returns the partially accumulated set,
not the empty set, so the known outside collaborator still resolves to
`outside_collaborator` — refuting "any fetch failure during the drain
yields the empty set / resolution to `none`". -/
theorem fetchCollaborators_partial :
    fetchOutsideCollaborators (DrainResult.mk [["Bob"]] true) = ["bob"] ∧
    checkUserMembershipInOrg (fun _ _ => false)
      { login := "acme"
        outsideCollaborators := fetchOutsideCollaborators (DrainResult.mk [["Bob"]] true) }
      "bob" = MembershipType.outside_collaborator := by
  decide

/-- C3 (amended): a failed collaborator-listing drain is not
propagated — the cache is the set accumulated from the pages yielded
before the failure, identical to a successful drain of those pages, and
it is empty exactly when the drain failed before its first page; then a
known outside collaborator whose direct check also fails resolves to
`none`. -/
theorem fetchCollaborators_degrades (dc : String → String → Bool)
    (login username : String) (pages : List (List String))
    (hdc : dc login username = false) :
    fetchOutsideCollaborators (DrainResult.mk pages true) =
      fetchOutsideCollaborators (DrainResult.mk pages false) ∧
    (fetchOutsideCollaborators (DrainResult.mk [] true) = [] ∧
      checkUserMembershipInOrg dc
        { login := login
          outsideCollaborators := fetchOutsideCollaborators (DrainResult.mk [] true) }
        username = MembershipType.none) := by
  refine ⟨rfl, rfl, ?_⟩
  simp [checkUserMembershipInOrg, fetchOutsideCollaborators, hdc]

theorem fetchCollaborators_degrades_witness :
    fetchOutsideCollaborators (DrainResult.mk [["Bob"]] true) =
      fetchOutsideCollaborators (DrainResult.mk [["Bob"]] false) ∧
    (fetchOutsideCollaborators (DrainResult.mk [] true) = [] ∧
      checkUserMembershipInOrg (fun _ _ => false)
        { login := "acme"
          outsideCollaborators := fetchOutsideCollaborators (DrainResult.mk [] true) }
        "bob" = MembershipType.none) :=
  fetchCollaborators_degrades (fun _ _ => false) "acme" "bob" [["Bob"]] rfl

/-- C8: a failed top-level enumeration makes the whole directory
resolution fail with a hard error carrying the underlying message; no
organization list is returned. -/
theorem getEnterpriseOrganizations_fatal (m : String)
    (collabFetch : String → DrainResult) :
    getEnterpriseOrganizations (Except.error m) collabFetch =
      Except.error ("Failed to fetch enterprise organizations: " ++ m) := by
  rfl

theorem contains_true_iff (l : List String) (a : String) :
    l.contains a = true ↔ a ∈ l := by
  simp [List.contains, List.elem_iff]

theorem uniqueAux_cons_skip (seen : List String) (x : String) (xs : List String)
    (h : x ∈ seen) : uniqueAux seen (x :: xs) = uniqueAux seen xs := by
  simp [uniqueAux, contains_true_iff, h]

theorem uniqueAux_cons_new (seen : List String) (x : String) (xs : List String)
    (h : x ∉ seen) : uniqueAux seen (x :: xs) = x :: uniqueAux (x :: seen) xs := by
  simp [uniqueAux, contains_true_iff, h]

theorem resolveLoop_cons_skip (dc : String → String → Bool) (orgs : List OrganizationInfo)
    (cache : List String) (x : String) (xs : List String)
    (h : toLowerStr x ∈ cache) :
    resolveLoop dc orgs cache (x :: xs) = resolveLoop dc orgs cache xs := by
  simp [resolveLoop, contains_true_iff, h]

theorem resolveLoop_cons_new (dc : String → String → Bool) (orgs : List OrganizationInfo)
    (cache : List String) (x : String) (xs : List String)
    (h : toLowerStr x ∉ cache) :
    resolveLoop dc orgs cache (x :: xs) =
      (x, { username := x, organizations := resolveUserOrgs dc x orgs }) ::
        resolveLoop dc orgs (toLowerStr x :: cache) xs := by
  simp [resolveLoop, contains_true_iff, h]

/-- Exact-string deduplication upstream of the case-insensitive
`userCache` is invisible to `resolveLoop`: dropped exact duplicates
would have been skipped by the cache anyway. -/
theorem resolveLoop_skip_unique (dc : String → String → Bool) (orgs : List OrganizationInfo) :
    ∀ (xs seen cache : List String),
      (∀ s ∈ seen, toLowerStr s ∈ cache) →
      resolveLoop dc orgs cache (uniqueAux seen xs) = resolveLoop dc orgs cache xs := by
  intro xs
  induction xs with
  | nil => intro seen cache _; rfl
  | cons x xs ih =>
      intro seen cache hsc
      by_cases hx : x ∈ seen
      · rw [uniqueAux_cons_skip seen x xs hx, ih seen cache hsc,
          resolveLoop_cons_skip dc orgs cache x xs (hsc x hx)]
      · rw [uniqueAux_cons_new seen x xs hx]
        by_cases hxc : toLowerStr x ∈ cache
        · have hseen : ∀ s ∈ x :: seen, toLowerStr s ∈ cache := by
            intro s hs
            rcases List.mem_cons.mp hs with rfl | hs
            · exact hxc
            · exact hsc s hs
          rw [resolveLoop_cons_skip dc orgs cache x _ hxc,
            resolveLoop_cons_skip dc orgs cache x xs hxc,
            ih (x :: seen) cache hseen]
        · have hseen : ∀ s ∈ x :: seen, toLowerStr s ∈ toLowerStr x :: cache := by
            intro s hs
            rcases List.mem_cons.mp hs with rfl | hs
            · exact List.mem_cons_self _ _
            · exact List.mem_cons_of_mem _ (hsc s hs)
          rw [resolveLoop_cons_new dc orgs cache x _ hxc,
            resolveLoop_cons_new dc orgs cache x xs hxc,
            ih (x :: seen) (toLowerStr x :: cache) hseen]

/-- Every entry emitted by `resolveLoop` carries the first username of
the remaining worklist in its case-insensitive class, its lower-casing
is not cached, and its value is the organization fan-out for that
username. -/
theorem resolveLoop_mem (dc : String → String → Bool) (orgs : List OrganizationInfo) :
    ∀ (xs cache : List String) (p : String × UserMembership),
      p ∈ resolveLoop dc orgs cache xs →
      xs.find? (fun u => toLowerStr u == toLowerStr p.1) = some p.1 ∧
      toLowerStr p.1 ∉ cache ∧
      p.2 = { username := p.1, organizations := resolveUserOrgs dc p.1 orgs } := by
  intro xs
  induction xs with
  | nil => intro cache p hp; simp [resolveLoop] at hp
  | cons x xs ih =>
      intro cache p hp
      by_cases hxc : toLowerStr x ∈ cache
      · rw [resolveLoop_cons_skip dc orgs cache x xs hxc] at hp
        obtain ⟨hfind, hcache, hval⟩ := ih cache p hp
        refine ⟨?_, hcache, hval⟩
        have hx : ¬ ((fun u => toLowerStr u == toLowerStr p.1) x = true) := by
          simp only [beq_iff_eq]
          intro heq
          exact hcache (heq ▸ hxc)
        have hstep : List.find? (fun u => toLowerStr u == toLowerStr p.1) (x :: xs) =
            List.find? (fun u => toLowerStr u == toLowerStr p.1) xs :=
          List.find?_cons_of_neg xs hx
        rw [hstep, hfind]
      · rw [resolveLoop_cons_new dc orgs cache x xs hxc] at hp
        rcases List.mem_cons.mp hp with rfl | hp
        · exact ⟨List.find?_cons_of_pos _ (by simp), hxc, rfl⟩
        · obtain ⟨hfind, hcache, hval⟩ := ih (toLowerStr x :: cache) p hp
          have hne : toLowerStr x ≠ toLowerStr p.1 := by
            intro heq
            exact hcache (by rw [← heq]; exact List.mem_cons_self _ _)
          refine ⟨?_, fun hc => hcache (List.mem_cons_of_mem _ hc), hval⟩
          have hx : ¬ ((fun u => toLowerStr u == toLowerStr p.1) x = true) := by
            simp only [beq_iff_eq]
            exact hne
          have hstep : List.find? (fun u => toLowerStr u == toLowerStr p.1) (x :: xs) =
              List.find? (fun u => toLowerStr u == toLowerStr p.1) xs :=
            List.find?_cons_of_neg xs hx
          rw [hstep, hfind]

/-- The lower-cased keys emitted by `resolveLoop` are pairwise
distinct. -/
theorem resolveLoop_keys_nodup (dc : String → String → Bool) (orgs : List OrganizationInfo) :
    ∀ (xs cache : List String),
      ((resolveLoop dc orgs cache xs).map (fun p => toLowerStr p.1)).Nodup := by
  intro xs
  induction xs with
  | nil => intro cache; simp [resolveLoop]
  | cons x xs ih =>
      intro cache
      by_cases hxc : toLowerStr x ∈ cache
      · rw [resolveLoop_cons_skip dc orgs cache x xs hxc]
        exact ih cache
      · rw [resolveLoop_cons_new dc orgs cache x xs hxc]
        simp only [List.map_cons]
        refine List.Nodup.cons ?_ (ih (toLowerStr x :: cache))
        intro hmem
        obtain ⟨q, hq, hkey⟩ := List.mem_map.mp hmem
        have hq2 := (resolveLoop_mem dc orgs xs (toLowerStr x :: cache) q hq).2.1
        apply hq2
        rw [hkey]
        exact List.mem_cons_self _ _

theorem resolveAll_eq_loop (dc : String → String → Bool) (orgs : List OrganizationInfo)
    (usernames : List String) :
    checkUserMemberships dc orgs usernames = resolveLoop dc orgs [] usernames := by
  unfold checkUserMemberships uniqueList
  exact resolveLoop_skip_unique dc orgs usernames [] [] (by intro s hs; cases hs)

/-- C4: the map produced by the membership engine has no entry for a
username absent (case-insensitively) from the input, at most one entry
per case-insensitive class, and each entry's key — equal to its display
name — is the first-seen casing in the input list. -/
theorem resolveAll_dedup (dc : String → String → Bool) (orgs : List OrganizationInfo)
    (usernames : List String) :
    (∀ p ∈ checkUserMemberships dc orgs usernames,
        usernames.find? (fun u => toLowerStr u == toLowerStr p.1) = some p.1 ∧
        p.2.username = p.1) ∧
    ((checkUserMemberships dc orgs usernames).map (fun p => toLowerStr p.1)).Nodup := by
  rw [resolveAll_eq_loop]
  constructor
  · intro p hp
    obtain ⟨hfind, -, hval⟩ := resolveLoop_mem dc orgs usernames [] p hp
    exact ⟨hfind, by rw [hval]⟩
  · exact resolveLoop_keys_nodup dc orgs usernames []

theorem resolveAll_dedup_witness :
    (["Alice", "alice"].find? (fun u => toLowerStr u == toLowerStr "Alice") = some "Alice" ∧
      (UserMembership.mk "Alice" []).username = "Alice") ∧
    ((checkUserMemberships (fun _ _ => false) [] ["Alice", "alice"]).map
        (fun p => toLowerStr p.1)).Nodup :=
  ⟨(resolveAll_dedup (fun _ _ => false) [] ["Alice", "alice"]).1
      ("Alice", UserMembership.mk "Alice" []) (by decide),
    (resolveAll_dedup (fun _ _ => false) [] ["Alice", "alice"]).2⟩

theorem resolveUserOrgs_no_none (dc : String → String → Bool) (u : String) :
    ∀ orgs, ∀ q ∈ resolveUserOrgs dc u orgs, q.2 ≠ MembershipType.none := by
  intro orgs
  induction orgs with
  | nil => intro q hq; simp [resolveUserOrgs] at hq
  | cons o os ih =>
      intro q hq
      by_cases ht : checkUserMembershipInOrg dc o u = MembershipType.none
      · rw [show resolveUserOrgs dc u (o :: os) = resolveUserOrgs dc u os from by
            simp [resolveUserOrgs, ht]] at hq
        exact ih q hq
      · rw [show resolveUserOrgs dc u (o :: os) =
            (o.login, checkUserMembershipInOrg dc o u) :: resolveUserOrgs dc u os from by
            simp [resolveUserOrgs, ht]] at hq
        rcases List.mem_cons.mp hq with rfl | hq
        · exact ht
        · exact ih q hq

theorem resolveUserOrgs_keys_sublist (dc : String → String → Bool) (u : String) :
    ∀ orgs, List.Sublist ((resolveUserOrgs dc u orgs).map (fun q => q.1))
      (orgs.map (fun o => o.login)) := by
  intro orgs
  induction orgs with
  | nil => simp [resolveUserOrgs]
  | cons o os ih =>
      by_cases ht : checkUserMembershipInOrg dc o u = MembershipType.none
      · rw [show resolveUserOrgs dc u (o :: os) = resolveUserOrgs dc u os from by
            simp [resolveUserOrgs, ht]]
        simp only [List.map_cons]
        exact List.Sublist.cons _ ih
      · rw [show resolveUserOrgs dc u (o :: os) =
            (o.login, checkUserMembershipInOrg dc o u) :: resolveUserOrgs dc u os from by
            simp [resolveUserOrgs, ht]]
        simp only [List.map_cons]
        exact List.Sublist.cons₂ _ ih

theorem mapSet_fresh (m : List (String × MembershipType)) (k : String) (t : MembershipType)
    (h : k ∉ m.map (fun q => q.1)) : mapSet m k t = m ++ [(k, t)] := by
  have hany : ¬ (m.any (fun q => q.1 == k) = true) := by
    intro hany
    obtain ⟨q, hq, hbeq⟩ := List.any_eq_true.mp hany
    exact h ((beq_iff_eq.mp hbeq) ▸ List.mem_map_of_mem (fun q => q.1) hq)
  unfold mapSet
  rw [if_neg hany]

theorem resolveUserOrgs_eq_filterMap (dc : String → String → Bool) (u : String) :
    ∀ os : List OrganizationInfo,
      resolveUserOrgs dc u os = os.filterMap (fun o =>
        if checkUserMembershipInOrg dc o u = MembershipType.none then Option.none
        else some (o.login, checkUserMembershipInOrg dc o u)) := by
  intro os
  induction os with
  | nil => rfl
  | cons o os ih =>
      by_cases ht : checkUserMembershipInOrg dc o u = MembershipType.none
      · rw [show resolveUserOrgs dc u (o :: os) = resolveUserOrgs dc u os from by
            simp [resolveUserOrgs, ht], ih]
        rw [List.filterMap_cons]
        simp [ht]
      · rw [show resolveUserOrgs dc u (o :: os) =
            (o.login, checkUserMembershipInOrg dc o u) :: resolveUserOrgs dc u os from by
            simp [resolveUserOrgs, ht], ih]
        rw [List.filterMap_cons]
        simp [ht]

theorem range_filterMap_getElem {α : Type} :
    ∀ l : List α, (List.range l.length).filterMap (fun i => l[i]?) = l := by
  intro l
  induction l with
  | nil => rfl
  | cons a l ih =>
      rw [List.length_cons, List.range_succ_eq_map,
        List.filterMap_cons_some (show (a :: l)[0]? = some a from List.getElem?_cons_zero),
        List.filterMap_map]
      rw [show ((fun i => (a :: l)[i]?) ∘ Nat.succ) = fun i => l[i]? from
          funext fun i => List.getElem?_cons_succ]
      rw [ih]

theorem permuteByIdx_perm (orgs : List OrganizationInfo) (sched : List Nat)
    (h : sched.Perm (List.range orgs.length)) :
    (permuteByIdx orgs sched).Perm orgs := by
  have h2 := h.filterMap (fun i => orgs[i]?)
  rw [range_filterMap_getElem orgs] at h2
  exact h2

/-- As long as every login about to be written is fresh, the
completion-event fold is the serialized fan-out of the completion-order
list appended to the accumulator. -/
theorem resolveSched_eq (dc : String → String → Bool) (u : String) :
    ∀ (os : List OrganizationInfo) (m : List (String × MembershipType)),
      (os.map (fun o => o.login)).Nodup →
      (∀ k ∈ m.map (fun q => q.1), k ∉ os.map (fun o => o.login)) →
      os.foldl (schedStep dc u) m = m ++ resolveUserOrgs dc u os := by
  intro os
  induction os with
  | nil => intro m _ _; simp [resolveUserOrgs]
  | cons o os ih =>
      intro m hnod hdisj
      rw [List.map_cons] at hnod
      have hnod' := (List.nodup_cons.mp hnod).2
      have hhead := (List.nodup_cons.mp hnod).1
      rw [List.foldl_cons]
      by_cases ht : checkUserMembershipInOrg dc o u = MembershipType.none
      · have hstep : schedStep dc u m o = m := by simp [schedStep, ht]
        have hdisj' : ∀ k ∈ m.map (fun q => q.1), k ∉ os.map (fun o => o.login) := by
          intro k hk hmem
          exact hdisj k hk (List.mem_cons_of_mem _ hmem)
        rw [hstep, ih m hnod' hdisj',
          show resolveUserOrgs dc u (o :: os) = resolveUserOrgs dc u os from by
            simp [resolveUserOrgs, ht]]
      · have hfresh : o.login ∉ m.map (fun q => q.1) := by
          intro hk
          exact hdisj o.login hk (List.mem_cons_self _ _)
        have hstep : schedStep dc u m o =
            m ++ [(o.login, checkUserMembershipInOrg dc o u)] := by
          rw [show schedStep dc u m o =
              mapSet m o.login (checkUserMembershipInOrg dc o u) from by
              simp [schedStep, ht]]
          exact mapSet_fresh m o.login _ hfresh
        have hdisj2 : ∀ k ∈ (m ++ [(o.login, checkUserMembershipInOrg dc o u)]).map
            (fun q => q.1), k ∉ os.map (fun o => o.login) := by
          intro k hk
          rw [List.map_append] at hk
          rcases List.mem_append.mp hk with hk | hk
          · intro hmem
            exact hdisj k hk (List.mem_cons_of_mem _ hmem)
          · have hk2 : k = o.login := by simpa using hk
            rw [hk2]
            exact hhead
        rw [hstep, ih _ hnod' hdisj2,
          show resolveUserOrgs dc u (o :: os) =
              (o.login, checkUserMembershipInOrg dc o u) :: resolveUserOrgs dc u os from by
            simp [resolveUserOrgs, ht],
          List.append_assoc]
        rfl

theorem resolveUserOrgsSched_eq (dc : String → String → Bool) (u : String)
    (orgs : List OrganizationInfo) (sched : List Nat)
    (h : ((permuteByIdx orgs sched).map (fun o => o.login)).Nodup) :
    resolveUserOrgsSched dc u orgs sched = resolveUserOrgs dc u (permuteByIdx orgs sched) := by
  unfold resolveUserOrgsSched
  rw [resolveSched_eq dc u (permuteByIdx orgs sched) [] h (by intro k hk; cases hk)]
  rfl

/-- C5 counterexample: under the completion schedule in which the
second organization's check settles first — a valid schedule, being a
permutation of the indices — the user's Map receives keys in completion
order `["zeta", "acme"]`, not in the iteration order
`["acme", "zeta"]`; so "keys taken in the order the organizations were
iterated" fails on the concurrent program. -/
theorem resolveAll_order_counterexample :
    [1, 0].Perm (List.range 2) ∧
    (resolveUserOrgsSched (fun _ _ => true) "mallory"
        [OrganizationInfo.mk "acme" [], OrganizationInfo.mk "zeta" []] [1, 0]).map
      (fun q => q.1) = ["zeta", "acme"] ∧
    ["zeta", "acme"] ≠
      ([OrganizationInfo.mk "acme" [], OrganizationInfo.mk "zeta" []].map
        (fun o => o.login)) := by
  decide

/-- C5 (amended): a user's organizations map holds only non-`none`
membership types; its keys arrive in the completion order of the
concurrent per-organization checks — under every completion schedule
(any permutation of the organization indices, logins being distinct)
the map holds the same entries, a permutation of the iteration-order
serialization, with keys a subsequence of the logins in completion
order. -/
theorem resolveAll_no_none (dc : String → String → Bool) (orgs : List OrganizationInfo)
    (usernames : List String) (hlog : (orgs.map (fun o => o.login)).Nodup) :
    ∀ p ∈ checkUserMemberships dc orgs usernames,
      (∀ q ∈ p.2.organizations, q.2 ≠ MembershipType.none) ∧
      ∀ sched : List Nat, sched.Perm (List.range orgs.length) →
        (resolveUserOrgsSched dc p.1 orgs sched).Perm p.2.organizations ∧
        List.Sublist ((resolveUserOrgsSched dc p.1 orgs sched).map (fun q => q.1))
          ((permuteByIdx orgs sched).map (fun o => o.login)) := by
  intro p hp
  rw [resolveAll_eq_loop] at hp
  obtain ⟨-, -, hval⟩ := resolveLoop_mem dc orgs usernames [] p hp
  have horg : p.2.organizations = resolveUserOrgs dc p.1 orgs := by rw [hval]
  refine ⟨by rw [horg]; exact resolveUserOrgs_no_none dc p.1 orgs, ?_⟩
  intro sched hsched
  have hperm : (permuteByIdx orgs sched).Perm orgs := permuteByIdx_perm orgs sched hsched
  have hnod : ((permuteByIdx orgs sched).map (fun o => o.login)).Nodup :=
    ((hperm.map (fun o => o.login)).symm).nodup hlog
  have heq := resolveUserOrgsSched_eq dc p.1 orgs sched hnod
  constructor
  · rw [heq, horg, resolveUserOrgs_eq_filterMap, resolveUserOrgs_eq_filterMap]
    exact hperm.filterMap _
  · rw [heq]
    exact resolveUserOrgs_keys_sublist dc p.1 (permuteByIdx orgs sched)

theorem resolveAll_no_none_witness :
    ("acme", MembershipType.outside_collaborator).2 ≠ MembershipType.none ∧
    ((resolveUserOrgsSched (fun _ _ => false) "mallory"
        [OrganizationInfo.mk "acme" ["mallory"]] [0]).Perm
      (UserMembership.mk "mallory"
        [("acme", MembershipType.outside_collaborator)]).organizations ∧
      List.Sublist
        ((resolveUserOrgsSched (fun _ _ => false) "mallory"
            [OrganizationInfo.mk "acme" ["mallory"]] [0]).map (fun q => q.1))
        ((permuteByIdx [OrganizationInfo.mk "acme" ["mallory"]] [0]).map
          (fun o => o.login))) :=
  have h := resolveAll_no_none (fun _ _ => false) [OrganizationInfo.mk "acme" ["mallory"]]
    ["mallory"] (by decide)
    ("mallory", UserMembership.mk "mallory" [("acme", MembershipType.outside_collaborator)])
    (by decide)
  ⟨h.1 ("acme", MembershipType.outside_collaborator) (by decide), h.2 [0] (by decide)⟩

/-- `uniqueAux` only consults `seen` through membership. -/
theorem uniqueAux_congr :
    ∀ (xs seen₁ seen₂ : List String), (∀ a, a ∈ seen₁ ↔ a ∈ seen₂) →
      uniqueAux seen₁ xs = uniqueAux seen₂ xs := by
  intro xs
  induction xs with
  | nil => intro _ _ _; rfl
  | cons x xs ih =>
      intro s₁ s₂ hiff
      by_cases hx : x ∈ s₁
      · rw [uniqueAux_cons_skip _ _ _ hx, uniqueAux_cons_skip _ _ _ ((hiff x).mp hx),
          ih s₁ s₂ hiff]
      · have hx₂ : x ∉ s₂ := fun h => hx ((hiff x).mpr h)
        have hcons : ∀ a, a ∈ x :: s₁ ↔ a ∈ x :: s₂ := by
          intro a
          simp [List.mem_cons, hiff a]
        rw [uniqueAux_cons_new _ _ _ hx, uniqueAux_cons_new _ _ _ hx₂,
          ih (x :: s₁) (x :: s₂) hcons]

/-- `uniqueAux` emits no duplicates and nothing already seen. -/
theorem uniqueAux_nodup :
    ∀ (xs seen : List String),
      (uniqueAux seen xs).Nodup ∧ ∀ a ∈ uniqueAux seen xs, a ∉ seen := by
  intro xs
  induction xs with
  | nil => intro seen; exact ⟨List.nodup_nil, by intro a ha; cases ha⟩
  | cons x xs ih =>
      intro seen
      by_cases hx : x ∈ seen
      · rw [uniqueAux_cons_skip _ _ _ hx]
        exact ih seen
      · rw [uniqueAux_cons_new _ _ _ hx]
        obtain ⟨hnd, hns⟩ := ih (x :: seen)
        refine ⟨List.Nodup.cons (fun hmem => hns x hmem (List.mem_cons_self _ _)) hnd, ?_⟩
        intro a ha
        rcases List.mem_cons.mp ha with rfl | ha
        · exact hx
        · exact fun hseen => hns a ha (List.mem_cons_of_mem _ hseen)

theorem upsertRepo_keys (m : List (String × List SearchResult)) (k : String) (r : SearchResult) :
    (upsertRepo m k r).map (fun q => q.1) =
      if k ∈ m.map (fun q => q.1) then m.map (fun q => q.1)
      else m.map (fun q => q.1) ++ [k] := by
  induction m with
  | nil => simp [upsertRepo]
  | cons q m ih =>
      by_cases hq : q.1 = k
      · rw [show upsertRepo (q :: m) k r = (q.1, q.2 ++ [r]) :: m from by simp [upsertRepo, hq]]
        simp [hq]
      · rw [show upsertRepo (q :: m) k r = q :: upsertRepo m k r from by simp [upsertRepo, hq]]
        simp only [List.map_cons, ih]
        by_cases hk : k ∈ m.map (fun q => q.1)
        · simp [hk, List.mem_cons]
        · simp [hk, List.mem_cons, Ne.symm hq]

theorem ownerGroup_cons_hit (q : String × List SearchResult)
    (m : List (String × List SearchResult)) (k : String) (h : q.1 = k) :
    ownerGroup (q :: m) k = q.2 := by
  simp [ownerGroup, List.find?, h]

theorem ownerGroup_cons_miss (q : String × List SearchResult)
    (m : List (String × List SearchResult)) (k : String) (h : q.1 ≠ k) :
    ownerGroup (q :: m) k = ownerGroup m k := by
  have hb : (q.1 == k) = false := beq_eq_false_iff_ne.mpr h
  simp [ownerGroup, List.find?, hb]

theorem upsertRepo_lookup (m : List (String × List SearchResult)) (k₀ k : String)
    (r : SearchResult) :
    ownerGroup (upsertRepo m k₀ r) k =
      if k = k₀ then ownerGroup m k ++ [r] else ownerGroup m k := by
  induction m with
  | nil =>
      by_cases hk : k = k₀
      · subst hk
        rw [show upsertRepo [] k r = [(k, [r])] from rfl, ownerGroup_cons_hit _ _ _ rfl]
        simp [ownerGroup]
      · rw [show upsertRepo [] k₀ r = [(k₀, [r])] from rfl,
          ownerGroup_cons_miss _ _ _ (Ne.symm hk)]
        simp [hk]
  | cons q m ih =>
      by_cases hq : q.1 = k₀
      · rw [show upsertRepo (q :: m) k₀ r = (q.1, q.2 ++ [r]) :: m from by simp [upsertRepo, hq]]
        by_cases hk : k = k₀
        · subst hk
          rw [ownerGroup_cons_hit (q.1, q.2 ++ [r]) m k hq, ownerGroup_cons_hit q m k hq]
          simp
        · have hqk : q.1 ≠ k := by rw [hq]; exact Ne.symm hk
          rw [ownerGroup_cons_miss (q.1, q.2 ++ [r]) m k hqk, ownerGroup_cons_miss q m k hqk]
          simp [hk]
      · rw [show upsertRepo (q :: m) k₀ r = q :: upsertRepo m k₀ r from by simp [upsertRepo, hq]]
        by_cases hqk : q.1 = k
        · have hk : k ≠ k₀ := by
            intro h
            exact hq (hqk.trans h)
          rw [ownerGroup_cons_hit _ _ _ hqk, ownerGroup_cons_hit q m k hqk]
          simp [hk]
        · rw [ownerGroup_cons_miss _ _ _ hqk, ownerGroup_cons_miss q m k hqk]
          exact ih

theorem groupFold_keys :
    ∀ (rs : List SearchResult) (m : List (String × List SearchResult)),
      ((rs.foldl (fun acc r => upsertRepo acc r.owner r) m).map (fun q => q.1)) =
        m.map (fun q => q.1) ++ uniqueAux (m.map (fun q => q.1)) (rs.map (fun r => r.owner)) := by
  intro rs
  induction rs with
  | nil => intro m; simp [uniqueAux]
  | cons r rs ih =>
      intro m
      rw [List.foldl_cons, ih (upsertRepo m r.owner r), upsertRepo_keys]
      by_cases hk : r.owner ∈ m.map (fun q => q.1)
      · rw [if_pos hk, List.map_cons, uniqueAux_cons_skip _ _ _ hk]
      · rw [if_neg hk, List.map_cons, uniqueAux_cons_new _ _ _ hk,
          uniqueAux_congr (rs.map (fun r => r.owner)) (m.map (fun q => q.1) ++ [r.owner])
            (r.owner :: m.map (fun q => q.1))
            (by intro a; simp [List.mem_append, List.mem_cons, or_comm])]
        simp

theorem groupFold_lookup :
    ∀ (rs : List SearchResult) (m : List (String × List SearchResult)) (k : String),
      ownerGroup (rs.foldl (fun acc r => upsertRepo acc r.owner r) m) k =
        ownerGroup m k ++ rs.filter (fun r => r.owner == k) := by
  intro rs
  induction rs with
  | nil => intro m k; simp
  | cons r rs ih =>
      intro m k
      rw [List.foldl_cons, ih (upsertRepo m r.owner r) k, upsertRepo_lookup]
      by_cases hk : k = r.owner
      · subst hk
        rw [if_pos rfl, List.filter_cons]
        simp
      · rw [if_neg hk, List.filter_cons]
        have : ¬ ((r.owner == k) = true) := by
          simp only [beq_iff_eq]
          exact Ne.symm hk
        simp [this]

theorem find?_assoc_nodup {β : Type} :
    ∀ (m : List (String × β)) (p : String × β),
      (m.map (fun q => q.1)).Nodup → p ∈ m →
      m.find? (fun q => q.1 == p.1) = some p := by
  intro m
  induction m with
  | nil => intro p _ hp; cases hp
  | cons q m ih =>
      intro p hnd hp
      rcases List.mem_cons.mp hp with rfl | hp
      · exact List.find?_cons_of_pos _ (by simp)
      · have hq1 : q.1 ∉ m.map (fun q => q.1) := (List.nodup_cons.mp hnd).1
        have hp1 : p.1 ∈ m.map (fun q => q.1) := List.mem_map_of_mem _ hp
        have hne : ¬ ((fun q : String × β => q.1 == p.1) q = true) := by
          simp only [beq_iff_eq]
          intro heq
          exact hq1 (heq ▸ hp1)
        have hstep : List.find? (fun q : String × β => q.1 == p.1) (q :: m) =
            List.find? (fun q : String × β => q.1 == p.1) m :=
          List.find?_cons_of_neg m hne
        rw [hstep]
        exact ih p (List.nodup_cons.mp hnd).2 hp

/-- The grouping map sends each owner to exactly the input repositories
with that owner, in input order. -/
theorem groupByOwner_mem (repos : List SearchResult) (p : String × List SearchResult)
    (hp : p ∈ groupByOwner repos) :
    p.2 = repos.filter (fun r => r.owner == p.1) := by
  have hkeys : ((groupByOwner repos).map (fun q => q.1)).Nodup := by
    unfold groupByOwner
    rw [groupFold_keys repos []]
    simpa using (uniqueAux_nodup (repos.map (fun r => r.owner)) []).1
  have hfind := find?_assoc_nodup (groupByOwner repos) p hkeys hp
  have hlook : ownerGroup (groupByOwner repos) p.1 = p.2 := by
    unfold ownerGroup
    rw [hfind]
  rw [← hlook]
  unfold groupByOwner
  rw [groupFold_lookup repos [] p.1]
  rfl

/-- C6: aggregation yields exactly one result per distinct raw owner
string, each carrying that owner's repositories in input order, and an
owner absent from the membership map gets an empty membership list. -/
theorem aggregate_grouping (lc : String → String → Int) (repos : List SearchResult)
    (ms : List (String × UserMembership)) :
    ((aggregateResults lc repos ms).map (fun u => u.username)).Perm
      (uniqueList (repos.map (fun r => r.owner))) ∧
    ∀ u ∈ aggregateResults lc repos ms,
      u.repositories = repos.filter (fun r => r.owner == u.username) ∧
      (ms.find? (fun q => q.1 == u.username) = Option.none → u.memberships = []) := by
  have hkeys : ((groupByOwner repos).map (fun q => q.1)) =
      uniqueList (repos.map (fun r => r.owner)) := by
    unfold groupByOwner uniqueList
    rw [groupFold_keys repos []]
    simp
  constructor
  · have hperm := (List.perm_insertionSort (userLE lc)
      ((groupByOwner repos).map (fun q =>
        ({ username := q.1
           repositories := q.2
           memberships := membershipListOf ms q.1 } : UserResult)))).map
      (fun u => u.username)
    refine hperm.trans ?_
    rw [List.map_map]
    rw [show ((fun u : UserResult => u.username) ∘ fun q : String × List SearchResult =>
        ({ username := q.1
           repositories := q.2
           memberships := membershipListOf ms q.1 } : UserResult)) =
        fun q : String × List SearchResult => q.1 from rfl, hkeys]
  · intro u hu
    have hu2 : u ∈ (groupByOwner repos).map (fun q =>
        ({ username := q.1
           repositories := q.2
           memberships := membershipListOf ms q.1 } : UserResult)) :=
      (List.perm_insertionSort (userLE lc) _).mem_iff.mp hu
    obtain ⟨q, hq, rfl⟩ := List.mem_map.mp hu2
    refine ⟨groupByOwner_mem repos q hq, ?_⟩
    intro hnone
    have hnone2 : ms.find? (fun p => p.1 == q.1) = Option.none := hnone
    show membershipListOf ms q.1 = []
    unfold membershipListOf
    rw [hnone2]

theorem aggregate_grouping_witness :
    ((aggregateResults lcExample [SearchResult.mk "mallory" "x" "u1"] []).map
        (fun u => u.username)).Perm
      (uniqueList ([SearchResult.mk "mallory" "x" "u1"].map (fun r => r.owner))) ∧
    (UserResult.mk "mallory" [SearchResult.mk "mallory" "x" "u1"] []).repositories =
      [SearchResult.mk "mallory" "x" "u1"].filter (fun r =>
        r.owner == (UserResult.mk "mallory" [SearchResult.mk "mallory" "x" "u1"] []).username) ∧
    (UserResult.mk "mallory" [SearchResult.mk "mallory" "x" "u1"] []).memberships = [] :=
  have h := aggregate_grouping lcExample [SearchResult.mk "mallory" "x" "u1"] []
  have h2 := h.2 (UserResult.mk "mallory" [SearchResult.mk "mallory" "x" "u1"] []) (by decide)
  ⟨h.1, h2.1, h2.2 (by decide)⟩

theorem lexLeChars_total :
    ∀ xs ys : List Char, lexLeChars xs ys = true ∨ lexLeChars ys xs = true := by
  intro xs
  induction xs with
  | nil => intro ys; exact Or.inl rfl
  | cons c cs ih =>
      intro ys
      cases ys with
      | nil => exact Or.inr rfl
      | cons d ds =>
          by_cases hcd : c = d
          · rcases ih ds with h | h
            · exact Or.inl (by simp [lexLeChars, hcd, h])
            · exact Or.inr (by simp [lexLeChars, hcd, h])
          · rcases lt_or_gt_of_ne hcd with h | h
            · exact Or.inl (by simp [lexLeChars, hcd, h])
            · exact Or.inr (by simp [lexLeChars, Ne.symm hcd, h])

theorem lexLeChars_trans :
    ∀ xs ys zs : List Char, lexLeChars xs ys = true → lexLeChars ys zs = true →
      lexLeChars xs zs = true := by
  intro xs
  induction xs with
  | nil => intro ys zs _ _; rfl
  | cons c cs ih =>
      intro ys zs h1 h2
      cases ys with
      | nil => simp [lexLeChars] at h1
      | cons d ds =>
          cases zs with
          | nil => simp [lexLeChars] at h2
          | cons e es =>
              have split1 : (c = d ∧ lexLeChars cs ds = true) ∨ (c ≠ d ∧ c < d) := by
                by_cases hcd : c = d
                · exact Or.inl ⟨hcd, by simpa [lexLeChars, hcd] using h1⟩
                · exact Or.inr ⟨hcd, by simpa [lexLeChars, hcd] using h1⟩
              have split2 : (d = e ∧ lexLeChars ds es = true) ∨ (d ≠ e ∧ d < e) := by
                by_cases hde : d = e
                · exact Or.inl ⟨hde, by simpa [lexLeChars, hde] using h2⟩
                · exact Or.inr ⟨hde, by simpa [lexLeChars, hde] using h2⟩
              rcases split1 with ⟨hcd, hcs⟩ | ⟨hcd, hlt1⟩ <;>
                rcases split2 with ⟨hde, hds⟩ | ⟨hde, hlt2⟩
              · simpa [lexLeChars, hcd.trans hde] using ih ds es hcs hds
              · have hce : c < e := hcd ▸ hlt2
                simp [lexLeChars, ne_of_lt hce, hce]
              · have hce : c < e := hde ▸ hlt1
                simp [lexLeChars, ne_of_lt hce, hce]
              · have hce : c < e := lt_trans hlt1 hlt2
                simp [lexLeChars, ne_of_lt hce, hce]

theorem lcExample_le_iff (a b : String) :
    lcExample a b ≤ 0 ↔ lexLeChars a.data b.data = true := by
  unfold lcExample
  by_cases h : lexLeChars a.data b.data = true
  · rw [if_pos h]
    by_cases h2 : lexLeChars b.data a.data = true
    · rw [if_pos h2]
      constructor
      · intro _; exact h
      · intro _; decide
    · rw [if_neg h2]
      constructor
      · intro _; exact h
      · intro _; decide
  · rw [if_neg h]
    constructor
    · intro h1; exact absurd h1 (by decide)
    · intro h1; exact absurd h1 h

theorem lcExample_total : ∀ a b : String, lcExample a b ≤ 0 ∨ lcExample b a ≤ 0 := by
  intro a b
  rcases lexLeChars_total a.data b.data with h | h
  · exact Or.inl ((lcExample_le_iff a b).mpr h)
  · exact Or.inr ((lcExample_le_iff b a).mpr h)

theorem lcExample_trans : ∀ a b c : String,
    lcExample a b ≤ 0 → lcExample b c ≤ 0 → lcExample a c ≤ 0 := by
  intro a b c h1 h2
  exact (lcExample_le_iff a c).mpr
    (lexLeChars_trans a.data b.data c.data ((lcExample_le_iff a b).mp h1)
      ((lcExample_le_iff b c).mp h2))

theorem userLE_total (lc : String → String → Int)
    (htot : ∀ a b, lc a b ≤ 0 ∨ lc b a ≤ 0) :
    ∀ a b : UserResult, userLE lc a b ∨ userLE lc b a := by
  intro a b
  unfold userLE
  rcases lt_trichotomy a.memberships.length b.memberships.length with h | h | h
  · exact Or.inr (Or.inl h)
  · rcases htot a.username b.username with hk | hk
    · exact Or.inl (Or.inr ⟨h, hk⟩)
    · exact Or.inr (Or.inr ⟨h.symm, hk⟩)
  · exact Or.inl (Or.inl h)

theorem userLE_trans (lc : String → String → Int)
    (htrans : ∀ a b c, lc a b ≤ 0 → lc b c ≤ 0 → lc a c ≤ 0) :
    ∀ a b c : UserResult, userLE lc a b → userLE lc b c → userLE lc a c := by
  intro a b c hab hbc
  unfold userLE at hab hbc ⊢
  rcases hab with hab | ⟨hab1, hab2⟩
  · rcases hbc with hbc | ⟨hbc1, hbc2⟩
    · exact Or.inl (lt_trans hbc hab)
    · exact Or.inl (hbc1 ▸ hab)
  · rcases hbc with hbc | ⟨hbc1, hbc2⟩
    · exact Or.inl (by rw [hab1]; exact hbc)
    · exact Or.inr ⟨hab1.trans hbc1, htrans _ _ _ hab2 hbc2⟩

/-- C7: for every locale comparator inducing a total preorder (as a
consistent `localeCompare` does), the aggregated sequence is sorted by
membership count descending with ties broken by username ascending
under that comparator; on users A (2 memberships), B (0), C (2, name
before A) — all-lowercase names, on which every collation agrees with
the example collation — the output is [C, A, B]. -/
theorem aggregate_sorted (lc : String → String → Int)
    (htot : ∀ a b, lc a b ≤ 0 ∨ lc b a ≤ 0)
    (htrans : ∀ a b c, lc a b ≤ 0 → lc b c ≤ 0 → lc a c ≤ 0)
    (repos : List SearchResult) (ms : List (String × UserMembership)) :
    List.Sorted (userLE lc) (aggregateResults lc repos ms) ∧
    aggregateResults lcExample
      [SearchResult.mk "dave" "r1" "u1", SearchResult.mk "bob" "r2" "u2",
        SearchResult.mk "charlie" "r3" "u3"]
      [("dave", UserMembership.mk "dave"
          [("orga", MembershipType.member), ("orgb", MembershipType.member)]),
        ("charlie", UserMembership.mk "charlie"
          [("orga", MembershipType.member), ("orgb", MembershipType.member)])] =
      [UserResult.mk "charlie" [SearchResult.mk "charlie" "r3" "u3"]
          [("orga", MembershipType.member), ("orgb", MembershipType.member)],
        UserResult.mk "dave" [SearchResult.mk "dave" "r1" "u1"]
          [("orga", MembershipType.member), ("orgb", MembershipType.member)],
        UserResult.mk "bob" [SearchResult.mk "bob" "r2" "u2"] []] := by
  constructor
  · haveI : IsTotal UserResult (userLE lc) := ⟨userLE_total lc htot⟩
    haveI : IsTrans UserResult (userLE lc) := ⟨userLE_trans lc htrans⟩
    exact List.sorted_insertionSort (userLE lc) _
  · decide

theorem aggregate_sorted_witness :
    List.Sorted (userLE lcExample) (aggregateResults lcExample
      [SearchResult.mk "dave" "r1" "u1", SearchResult.mk "bob" "r2" "u2",
        SearchResult.mk "charlie" "r3" "u3"]
      [("dave", UserMembership.mk "dave"
          [("orga", MembershipType.member), ("orgb", MembershipType.member)]),
        ("charlie", UserMembership.mk "charlie"
          [("orga", MembershipType.member), ("orgb", MembershipType.member)])]) ∧
    aggregateResults lcExample
      [SearchResult.mk "dave" "r1" "u1", SearchResult.mk "bob" "r2" "u2",
        SearchResult.mk "charlie" "r3" "u3"]
      [("dave", UserMembership.mk "dave"
          [("orga", MembershipType.member), ("orgb", MembershipType.member)]),
        ("charlie", UserMembership.mk "charlie"
          [("orga", MembershipType.member), ("orgb", MembershipType.member)])] =
      [UserResult.mk "charlie" [SearchResult.mk "charlie" "r3" "u3"]
          [("orga", MembershipType.member), ("orgb", MembershipType.member)],
        UserResult.mk "dave" [SearchResult.mk "dave" "r1" "u1"]
          [("orga", MembershipType.member), ("orgb", MembershipType.member)],
        UserResult.mk "bob" [SearchResult.mk "bob" "r2" "u2"] []] :=
  have h := aggregate_sorted lcExample lcExample_total lcExample_trans
    [SearchResult.mk "dave" "r1" "u1", SearchResult.mk "bob" "r2" "u2",
      SearchResult.mk "charlie" "r3" "u3"]
    [("dave", UserMembership.mk "dave"
        [("orga", MembershipType.member), ("orgb", MembershipType.member)]),
      ("charlie", UserMembership.mk "charlie"
        [("orga", MembershipType.member), ("orgb", MembershipType.member)])]
  ⟨h.1, h.2⟩

/-- C9: aggregation is a pure function of its inputs — equal inputs
yield identical ordered output. -/
theorem aggregate_deterministic (lc : String → String → Int)
    (repos₁ repos₂ : List SearchResult)
    (ms₁ ms₂ : List (String × UserMembership))
    (hr : repos₁ = repos₂) (hm : ms₁ = ms₂) :
    aggregateResults lc repos₁ ms₁ = aggregateResults lc repos₂ ms₂ := by
  rw [hr, hm]

theorem aggregate_deterministic_witness :
    aggregateResults lcExample [SearchResult.mk "mallory" "x" "u1"] [] =
      aggregateResults lcExample [SearchResult.mk "mallory" "x" "u1"] [] :=
  aggregate_deterministic lcExample [SearchResult.mk "mallory" "x" "u1"]
    [SearchResult.mk "mallory" "x" "u1"] [] [] rfl rfl

theorem escapeQuotes_eq_nil (s : List Char) : escapeQuotes s = [] ↔ s = [] := by
  cases s with
  | nil => simp [escapeQuotes]
  | cons c cs => by_cases hc : c = '"' <;> simp [escapeQuotes, hc]

theorem collapse_escape (s : List Char) : collapseQuotes (escapeQuotes s) = s := by
  induction s with
  | nil => rfl
  | cons c cs ih =>
      by_cases hc : c = '"'
      · subst hc
        rw [show escapeQuotes ('"' :: cs) = '"' :: '"' :: escapeQuotes cs from by
              simp [escapeQuotes],
          show collapseQuotes ('"' :: '"' :: escapeQuotes cs) =
              '"' :: collapseQuotes (escapeQuotes cs) from by simp [collapseQuotes],
          ih]
      · rw [show escapeQuotes (c :: cs) = c :: escapeQuotes cs from by simp [escapeQuotes, hc]]
        cases hrest : escapeQuotes cs with
        | nil =>
            have hcs : cs = [] := (escapeQuotes_eq_nil cs).mp hrest
            subst hcs
            simp [collapseQuotes]
        | cons d ds =>
            rw [show collapseQuotes (c :: d :: ds) = c :: collapseQuotes (d :: ds) from by
                  simp [collapseQuotes, hc],
              ← hrest, ih]

/-- C10: a field with no comma, newline or double quote passes through
`escapeCSV` unchanged; otherwise it is wrapped in double quotes with
interior quotes doubled, and standard CSV field unescaping recovers the
original field exactly. -/
theorem escapeCSV_roundtrip (s : List Char) :
    ((s.contains ',' || s.contains '\n' || s.contains '"') = false → escapeCSV s = s) ∧
    ((s.contains ',' || s.contains '\n' || s.contains '"') = true →
      escapeCSV s = '"' :: (escapeQuotes s ++ ['"']) ∧
      unescapeCSVField (escapeCSV s) = s) := by
  constructor
  · intro h
    unfold escapeCSV
    rw [if_neg (by rw [h]; simp)]
  · intro h
    have he : escapeCSV s = '"' :: (escapeQuotes s ++ ['"']) := by
      unfold escapeCSV
      rw [if_pos h]
    refine ⟨he, ?_⟩
    rw [he]
    unfold unescapeCSVField
    simp only [List.drop_succ_cons, List.drop_zero, List.dropLast_concat]
    exact collapse_escape s

theorem escapeCSV_roundtrip_witness :
    escapeCSV ['a', 'b'] = ['a', 'b'] ∧
    (escapeCSV ['a', '"', 'b'] = '"' :: (escapeQuotes ['a', '"', 'b'] ++ ['"']) ∧
      unescapeCSVField (escapeCSV ['a', '"', 'b']) = ['a', '"', 'b']) :=
  ⟨(escapeCSV_roundtrip ['a', 'b']).1 (by decide),
    (escapeCSV_roundtrip ['a', '"', 'b']).2 (by decide)⟩
